import Mathlib

/-!
Shallow embedding of the MCMC notebook `src/mc.ipynb`.

The hand-written algorithmic core of the repository is the function
`metropolis(p, q, x_init, n)`:

    def metropolis(p,q,x_init,n):
        x = x_init
        samples = []
        rejected = []
        for i in range(n):
            x_prime = x + q()
            if p(x_prime)>p(x):
                x = x_prime
                samples.append(x_prime)
            else:
                pa = p(x_prime)/p(x)
                if np.random.uniform(0,1)<pa:
                    x = x_prime
                    samples.append(x_prime)
                else:
                    rejected.append(x_prime)
        return np.array(samples), np.array(rejected)

Randomness is embedded as two explicit streams: `q i` is the noise draw of
iteration `i` (the call `q()`), and `u i` is the uniform(0,1) draw of
iteration `i` (`np.random.uniform(0,1)`; the code draws it only on the
rejection branch, and it draws at most one per iteration, so indexing the
stream by the iteration is faithful).  Density values and states live in an
arbitrary linear ordered field so that witnesses can be evaluated over `ℚ`;
theorems that involve `exp`/`log` are stated over `ℝ`.  The field convention
`0 / 0 = 0` models the numpy outcome on the one code path where the divisor
can be zero: there `pa` is NaN and `u < pa` is false, exactly as `u < 0` is
false for `0 ≤ u`, so the accept/reject decision coincides.

The sweep scheduling (`mcmc.sample(iter=10000, burn=2000, thin=5)`), the
masked-observation imputation (`mc.Normal(..., value=y_impute,
observed=True)`) and the proposal distribution used by the notebook are
behaviour of the PyMC library the notebook calls into; the library's code is
not part of src/, so those parts are modelled from the spec, as indicated on
each definition.
-/

section MetropolisDefs

variable {α : Type*} [LinearOrderedField α]

/-- State of the `metropolis` loop: the current position `x` and the two
output lists `samples` and `rejected`. -/
structure MHState (α : Type*) where
  x : α
  samples : List α
  rejected : List α

/-- One iteration of the loop body of `metropolis`, given the noise draw
`noise` (the value of `q()`) and the uniform draw `u`. -/
def metropolisStep (p : α → α) (noise u : α) (s : MHState α) : MHState α :=
  let x_prime := s.x + noise
  if p x_prime > p s.x then
    { x := x_prime, samples := s.samples ++ [x_prime], rejected := s.rejected }
  else
    let pa := p x_prime / p s.x
    if u < pa then
      { x := x_prime, samples := s.samples ++ [x_prime], rejected := s.rejected }
    else
      { x := s.x, samples := s.samples, rejected := s.rejected ++ [x_prime] }

/-- The state after the first `n` iterations of `metropolis`. -/
def metropolisRun (p : α → α) (q u : ℕ → α) (xInit : α) : ℕ → MHState α
  | 0 => { x := xInit, samples := [], rejected := [] }
  | n + 1 => metropolisStep p (q n) (u n) (metropolisRun p q u xInit n)

/-- The pair returned by `metropolis`: the accepted samples and the
rejected candidates. -/
def metropolis (p : α → α) (q u : ℕ → α) (xInit : α) (n : ℕ) :
    List α × List α :=
  ((metropolisRun p q u xInit n).samples, (metropolisRun p q u xInit n).rejected)

/-- The candidate `x_prime` proposed at iteration `i`. -/
def mhCandidate (p : α → α) (q u : ℕ → α) (xInit : α) (i : ℕ) : α :=
  (metropolisRun p q u xInit i).x + q i

/-- The list of the `n` candidates proposed during a run. -/
def mhCandidates (p : α → α) (q u : ℕ → α) (xInit : α) (n : ℕ) : List α :=
  (List.range n).map (mhCandidate p q u xInit)

/-- The accept/reject decision of one iteration, extracted from the branch
structure of `metropolisStep`: accept when `p x_prime > p x`, otherwise
accept exactly when `u < p x_prime / p x`. -/
def mhAccepts (p : α → α) (x x_prime u : α) : Bool :=
  if p x_prime > p x then true else decide (u < p x_prime / p x)

end MetropolisDefs

section SamplerDefs

variable {α : Type*} {k : ℕ}

/-- Modelled from the spec: the retained-sweep rule of the chain controller
(`mcmc.sample(iter, burn, thin)` in the notebook is PyMC library code, not
present in src/).  Sweeps are indexed 1, 2, …; the first `burn` sweeps are
burn-in and record nothing; afterwards a sweep is retained when
`(i - burn) % thin == 0`. -/
def retainedSweep (burn thin i : ℕ) : Bool :=
  decide (burn < i) && decide ((i - burn) % thin = 0)

/-- The retained sweep indices among sweeps `1..t`. -/
def retainedSweeps (burn thin t : ℕ) : List ℕ :=
  ((List.range t).map (· + 1)).filter (retainedSweep burn thin)

/-- Modelled from the spec: state of a sampling run over `k` unobserved
nodes — the nodes' current values and one recorded trace sequence per
node. -/
structure SamplerState (k : ℕ) (α : Type*) where
  values : Fin k → α
  traces : Fin k → List α

/-- Modelled from the spec: one sweep of the chain controller.  `update i`
is the composite effect on node values of applying one Metropolis step to
every unobserved node at sweep `i` (it is universally quantified in the
theorems, so accept/reject outcomes are arbitrary); after the sweep, the
current values are appended to every node's trace exactly when the sweep is
retained. -/
def sweepStep (update : ℕ → (Fin k → α) → (Fin k → α)) (burn thin i : ℕ)
    (s : SamplerState k α) : SamplerState k α :=
  let v := update i s.values
  if retainedSweep burn thin i then
    { values := v, traces := fun j => s.traces j ++ [v j] }
  else
    { values := v, traces := s.traces }

/-- Modelled from the spec: the state after sweeps `1..t` of a sampling
run. -/
def runSampler (update : ℕ → (Fin k → α) → (Fin k → α)) (burn thin : ℕ)
    (init : Fin k → α) : ℕ → SamplerState k α
  | 0 => { values := init, traces := fun _ => [] }
  | t + 1 => sweepStep update burn thin (t + 1) (runSampler update burn thin init t)

end SamplerDefs

section ImputationDefs

/-- Modelled from the spec: descriptor of an Observed node whose
`observed_mask` marks each entry fixed (`true`) or missing/latent
(`false`).  In the notebook the masked array `y_impute` is handed to
`mc.Normal('y_obs', mu=line, tau=precision, value=y_impute, observed=True)`
and the latent-node synthesis happens inside the PyMC library, not in
src/. -/
structure ObservedSpec where
  name : String
  parents : List String
  family : String
  mask : List Bool

/-- Modelled from the spec: a latent scalar node synthesised for one masked
entry of an Observed node. -/
structure LatentNode where
  obsName : String
  index : ℕ
  parents : List String
  family : String

/-- Modelled from the spec: latent-node synthesis — one latent scalar per
masked (`false`) entry of the observed mask, each wired to the same parents
and given the same distributional family as the observed node. -/
def synthLatents (o : ObservedSpec) : List LatentNode :=
  (o.mask.enum.filter (fun e => !e.2)).map
    (fun e => { obsName := o.name, index := e.1,
                parents := o.parents, family := o.family })

end ImputationDefs

section ProposalDefs

variable {α : Type*} [LinearOrderedField α]

/-- The notebook's fixed-scale continuous proposal noise
`q = lambda: np.random.normal(0, scale)`: a zero-mean normal draw of the
given scale, modelled as `scale * z` where `z` is the standard draw taken
from the random source. -/
def qDraw (scale z : α) : α := scale * z

/-- The proposal applied to the current value, `x_prime = x + q()`. -/
def propose (scale cur z : α) : α := cur + qDraw scale z

end ProposalDefs

section StepLemmas

variable {α : Type*} [LinearOrderedField α]

theorem metropolisStep_eq_ite (p : α → α) (noise u : α) (s : MHState α) :
    metropolisStep p noise u s =
      if mhAccepts p s.x (s.x + noise) u then
        { x := s.x + noise, samples := s.samples ++ [s.x + noise],
          rejected := s.rejected }
      else
        { x := s.x, samples := s.samples,
          rejected := s.rejected ++ [s.x + noise] } := by
  unfold metropolisStep mhAccepts
  by_cases h : p (s.x + noise) > p s.x
  · simp [h]
  · by_cases h2 : u < p (s.x + noise) / p s.x <;> simp [h, h2]

theorem mhAccepts_of_lt (p : α → α) {x x_prime : α} (u : α)
    (h : p x < p x_prime) : mhAccepts p x x_prime u = true := by
  simp [mhAccepts, h]

theorem mhAccepts_false_of_candidate_zero (p : α → α) {x x_prime u : α}
    (hc : p x_prime = 0) (hx : 0 ≤ p x) (hu : 0 ≤ u) :
    mhAccepts p x x_prime u = false := by
  unfold mhAccepts
  rw [if_neg (by simp [hc, not_lt.mpr hx])]
  simp [hc, not_lt.mpr hu]

theorem metropolisStep_reject (p : α → α) (noise u : α) (s : MHState α)
    (h : mhAccepts p s.x (s.x + noise) u = false) :
    metropolisStep p noise u s =
      { x := s.x, samples := s.samples,
        rejected := s.rejected ++ [s.x + noise] } := by
  rw [metropolisStep_eq_ite, h]
  simp

theorem metropolisStep_pos (p : α → α) (noise u : α) (s : MHState α)
    (hs : 0 < p s.x) (hu : 0 ≤ u) :
    0 < p (metropolisStep p noise u s).x := by
  rw [metropolisStep_eq_ite]
  by_cases h : mhAccepts p s.x (s.x + noise) u
  · rw [if_pos h]
    unfold mhAccepts at h
    by_cases h1 : p (s.x + noise) > p s.x
    · exact lt_trans hs h1
    · rw [if_neg h1] at h
      have h2 : u < p (s.x + noise) / p s.x := of_decide_eq_true h
      have h3 : 0 < p (s.x + noise) / p s.x := lt_of_le_of_lt hu h2
      exact (div_pos_iff.mp h3).elim (fun hc => hc.1)
        (fun hc => absurd hs (not_lt.mpr (le_of_lt hc.2)))
  · rw [if_neg h]
    exact hs

theorem metropolisRun_pos (p : α → α) (q u : ℕ → α) (xInit : α)
    (h0 : 0 < p xInit) (hu : ∀ i, 0 ≤ u i) :
    ∀ n, 0 < p (metropolisRun p q u xInit n).x := by
  intro n
  induction n with
  | zero => exact h0
  | succ n ih => exact metropolisStep_pos p (q n) (u n) _ ih (hu n)

theorem mhCandidates_succ (p : α → α) (q u : ℕ → α) (xInit : α) (n : ℕ) :
    mhCandidates p q u xInit (n + 1) =
      mhCandidates p q u xInit n ++ [mhCandidate p q u xInit n] := by
  unfold mhCandidates
  rw [List.range_succ, List.map_append]
  rfl

theorem metropolisRun_partition (p : α → α) (q u : ℕ → α) (xInit : α) :
    ∀ n, List.Perm
      ((metropolisRun p q u xInit n).samples ++
        (metropolisRun p q u xInit n).rejected)
      (mhCandidates p q u xInit n) := by
  intro n
  induction n with
  | zero => exact List.Perm.refl _
  | succ n ih =>
    have hstep : metropolisRun p q u xInit (n + 1) =
        metropolisStep p (q n) (u n) (metropolisRun p q u xInit n) := rfl
    rw [hstep, metropolisStep_eq_ite, mhCandidates_succ]
    by_cases h : mhAccepts p (metropolisRun p q u xInit n).x
        ((metropolisRun p q u xInit n).x + q n) (u n) = true
    · rw [if_pos h]
      show List.Perm
        ((metropolisRun p q u xInit n).samples ++
            [mhCandidate p q u xInit n] ++
          (metropolisRun p q u xInit n).rejected)
        (mhCandidates p q u xInit n ++ [mhCandidate p q u xInit n])
      rw [List.append_assoc]
      refine List.Perm.trans
        (List.Perm.append_left _ List.perm_append_comm) ?_
      rw [← List.append_assoc]
      exact List.Perm.append_right _ ih
    · rw [if_neg h]
      show List.Perm
        ((metropolisRun p q u xInit n).samples ++
          ((metropolisRun p q u xInit n).rejected ++
            [mhCandidate p q u xInit n]))
        (mhCandidates p q u xInit n ++ [mhCandidate p q u xInit n])
      rw [← List.append_assoc]
      exact List.Perm.append_right _ ih

theorem metropolisRun_congr (p : α → α) (q q' u u' : ℕ → α) (xInit : α) :
    ∀ n, (∀ i, i < n → q i = q' i) → (∀ i, i < n → u i = u' i) →
      metropolisRun p q u xInit n = metropolisRun p q' u' xInit n := by
  intro n
  induction n with
  | zero => intro _ _; rfl
  | succ n ih =>
    intro hq hu
    show metropolisStep p (q n) (u n) (metropolisRun p q u xInit n) =
      metropolisStep p (q' n) (u' n) (metropolisRun p q' u' xInit n)
    rw [hq n (Nat.lt_succ_self n), hu n (Nat.lt_succ_self n),
      ih (fun i hi => hq i (Nat.lt_succ_of_lt hi))
        (fun i hi => hu i (Nat.lt_succ_of_lt hi))]

end StepLemmas

section SamplerLemmas

variable {α : Type*} {k : ℕ}

theorem retainedSweep_iff (burn thin i : ℕ) :
    retainedSweep burn thin i = true ↔ burn < i ∧ (i - burn) % thin = 0 := by
  simp [retainedSweep]

theorem sweepStep_values (update : ℕ → (Fin k → α) → (Fin k → α))
    (burn thin i : ℕ) (s : SamplerState k α) :
    (sweepStep update burn thin i s).values = update i s.values := by
  unfold sweepStep
  by_cases h : retainedSweep burn thin i = true <;> simp [h]

theorem retainedSweeps_succ (burn thin t : ℕ) :
    retainedSweeps burn thin (t + 1) =
      retainedSweeps burn thin t ++
        (if retainedSweep burn thin (t + 1) then [t + 1] else []) := by
  unfold retainedSweeps
  rw [List.range_succ, List.map_append, List.filter_append]
  simp [List.filter_singleton]

theorem runSampler_traces (update : ℕ → (Fin k → α) → (Fin k → α))
    (burn thin : ℕ) (init : Fin k → α) :
    ∀ (t : ℕ) (j : Fin k),
      (runSampler update burn thin init t).traces j =
        (retainedSweeps burn thin t).map
          (fun i => (runSampler update burn thin init i).values j) := by
  intro t
  induction t with
  | zero => intro j; rfl
  | succ t ih =>
    intro j
    rw [retainedSweeps_succ, List.map_append]
    have hstep : runSampler update burn thin init (t + 1) =
        sweepStep update burn thin (t + 1) (runSampler update burn thin init t) :=
      rfl
    by_cases h : retainedSweep burn thin (t + 1) = true
    · rw [if_pos h]
      conv_lhs => rw [hstep]
      unfold sweepStep
      rw [if_pos h]
      show (runSampler update burn thin init t).traces j ++
          [update (t + 1) (runSampler update burn thin init t).values j] = _
      rw [ih j, List.map_singleton]
      have hv : (runSampler update burn thin init (t + 1)).values =
          update (t + 1) (runSampler update burn thin init t).values := by
        rw [hstep, sweepStep_values]
      rw [hv]
    · rw [if_neg h]
      conv_lhs => rw [hstep]
      unfold sweepStep
      rw [if_neg h]
      show (runSampler update burn thin init t).traces j = _
      rw [ih j, List.map_nil, List.append_nil]

end SamplerLemmas

section ImputationLemmas

theorem enumFrom_filter_not_length :
    ∀ (l : List Bool) (n : ℕ),
      ((List.enumFrom n l).filter (fun e => !e.2)).length =
        (l.filter (fun b => !b)).length := by
  intro l
  induction l with
  | nil => intro n; rfl
  | cons b l ih =>
    intro n
    show (((n, b) :: List.enumFrom (n + 1) l).filter (fun e => !e.2)).length = _
    by_cases h : b = true <;> simp [List.filter_cons, h, ih]

end ImputationLemmas

section ClaimTheorems

variable {α : Type*} [LinearOrderedField α]

/-- C1: the accept/reject decision of one Metropolis step, read off the
branch structure of `metropolisStep`, implements the spec's rule in
log-density form.  For densities `p x`, `p x_prime` both positive and a
uniform(0,1) draw `u` (so `0 ≤ u < 1`): if the joint log-density after
setting the candidate is at least the one before, the step accepts (for
every admissible draw, i.e. with probability 1); otherwise it accepts
exactly when `u < exp(ld_after - ld_before)`, so the acceptance event is
decided by comparing one uniform(0,1) draw against
`exp(ld_after - ld_before)` and has exactly that probability. -/
theorem mh_acceptance_rule (p : ℝ → ℝ) (x x_prime u : ℝ)
    (hx : 0 < p x) (hx' : 0 < p x_prime) (hu0 : 0 ≤ u) (hu1 : u < 1) :
    (Real.log (p x) ≤ Real.log (p x_prime) →
      mhAccepts p x x_prime u = true) ∧
    (Real.log (p x_prime) < Real.log (p x) →
      (mhAccepts p x x_prime u = true ↔
        u < Real.exp (Real.log (p x_prime) - Real.log (p x)))) := by
  constructor
  · intro hlog
    rcases lt_or_eq_of_le ((Real.log_le_log_iff hx hx').mp hlog) with h | h
    · exact mhAccepts_of_lt p u h
    · unfold mhAccepts
      rw [if_neg (by simp [h])]
      rw [← h, div_self (ne_of_gt hx)]
      simp [hu1]
  · intro hlog
    have hlt : p x_prime < p x := (Real.log_lt_log_iff hx' hx).mp hlog
    have hexp : Real.exp (Real.log (p x_prime) - Real.log (p x)) =
        p x_prime / p x := by
      rw [Real.exp_sub, Real.exp_log hx', Real.exp_log hx]
    unfold mhAccepts
    rw [if_neg (not_lt.mpr (le_of_lt hlt)), hexp]
    simp

/-- Witness for C1 at a concrete input: constant density 2, `u = 1/2`. -/
theorem mh_acceptance_rule_witness :
    mhAccepts (fun _ : ℝ => 2) 0 1 (1 / 2) = true :=
  (mh_acceptance_rule (fun _ : ℝ => 2) 0 1 (1 / 2) (by norm_num)
    (by norm_num) (by norm_num) (by norm_num)).1 le_rfl

/-- C3: when the proposal of a step is rejected, the state after the step
equals the state before it exactly: the current position `x` is the saved
value unchanged (bit-for-bit, hence every deterministic descendant
recomputed from it is also unchanged) and the accepted-samples list is
untouched; only the rejected list records the candidate. -/
theorem mh_reject_restores_state (p : α → α) (noise u : α) (s : MHState α)
    (h : mhAccepts p s.x (s.x + noise) u = false) :
    metropolisStep p noise u s =
      { x := s.x, samples := s.samples,
        rejected := s.rejected ++ [s.x + noise] } :=
  metropolisStep_reject p noise u s h

/-- Witness for C3: a forced rejection (candidate density 0) over `ℚ`
leaves the state exactly as it was, with the candidate recorded as
rejected. -/
theorem mh_reject_restores_state_witness :
    metropolisStep (fun x : ℚ => 1 - x) 1 (1 / 2) ⟨0, [], []⟩ =
      { x := 0, samples := [], rejected := [(0 : ℚ) + 1] } :=
  mh_reject_restores_state (fun x : ℚ => 1 - x) 1 (1 / 2) ⟨0, [], []⟩
    (by norm_num [mhAccepts])

/-- C4: edge cases of the acceptance decision with zero densities
(log-density `-∞`).  If the current state has density 0 and the candidate
has positive density, the step always accepts; if the candidate has
density 0, the step never accepts, whatever the current density is (the
division `p x_prime / p x` follows the field convention `x / 0 = 0`,
which yields the same decision as the numpy NaN outcome since `u < NaN`
is false and here `u < 0` is false for `0 ≤ u`). -/
theorem mh_zero_density_edge_cases (p : α → α) (x x_prime u : α)
    (hx : 0 ≤ p x) (hu : 0 ≤ u) :
    (p x = 0 → 0 < p x_prime → mhAccepts p x x_prime u = true) ∧
    (p x_prime = 0 → mhAccepts p x x_prime u = false) := by
  constructor
  · intro h0 hpos
    exact mhAccepts_of_lt p u (h0 ▸ hpos)
  · intro hc
    exact mhAccepts_false_of_candidate_zero p hc hx hu

/-- Witness for C4 at concrete inputs over `ℚ`: moving from density 0 to
density 1 accepts; moving to density 0 rejects. -/
theorem mh_zero_density_edge_cases_witness :
    mhAccepts (fun x : ℚ => x) 0 1 (1 / 2) = true ∧
    mhAccepts (fun x : ℚ => 1 - x) 0 1 (1 / 2) = false :=
  ⟨(mh_zero_density_edge_cases (fun x : ℚ => x) 0 1 (1 / 2) le_rfl
      (by norm_num)).1 rfl (by norm_num),
   (mh_zero_density_edge_cases (fun x : ℚ => 1 - x) 0 1 (1 / 2)
      (by norm_num) (by norm_num)).2 (by norm_num)⟩

/-- C5: totality of the density evaluation and of the acceptance decision
along a run.  Density 0 embeds the joint log-density `-∞` of an
out-of-support value.  Starting from a state with positive density and
with nonnegative uniform draws, every attainable state has positive
density — so the divisor `p x` of the acceptance-ratio computation is
never zero at any reachable step (first conjunct) — and a candidate that
reports an out-of-support value (density 0) is handled as an ordinary
rejection, not a crash: the run continues with the state unchanged and the
candidate recorded as rejected (second conjunct). -/
theorem mh_out_of_support_total (p : α → α) (q u : ℕ → α) (xInit : α)
    (h0 : 0 < p xInit) (hu : ∀ i, 0 ≤ u i) (n : ℕ) :
    0 < p (metropolisRun p q u xInit n).x ∧
    (p (mhCandidate p q u xInit n) = 0 →
      metropolisRun p q u xInit (n + 1) =
        { x := (metropolisRun p q u xInit n).x,
          samples := (metropolisRun p q u xInit n).samples,
          rejected := (metropolisRun p q u xInit n).rejected ++
            [mhCandidate p q u xInit n] }) := by
  have hpos := metropolisRun_pos p q u xInit h0 hu n
  refine ⟨hpos, fun hc => ?_⟩
  show metropolisStep p (q n) (u n) (metropolisRun p q u xInit n) = _
  exact metropolisStep_reject p (q n) (u n) (metropolisRun p q u xInit n)
    (mhAccepts_false_of_candidate_zero p hc (le_of_lt hpos) (hu n))

/-- Witness for C5 over `ℚ`: density `1 - x`, start 0 (density 1), first
candidate 1 (density 0) — the state keeps positive density and the
zero-density candidate is rejected with the run intact. -/
theorem mh_out_of_support_total_witness :
    0 < (fun x : ℚ => 1 - x) (metropolisRun (fun x : ℚ => 1 - x)
        (fun _ => 1) (fun _ => 1 / 2) 0 0).x ∧
    ((fun x : ℚ => 1 - x)
        (mhCandidate (fun x : ℚ => 1 - x) (fun _ => 1) (fun _ => 1 / 2) 0 0) = 0 →
      metropolisRun (fun x : ℚ => 1 - x) (fun _ => 1) (fun _ => 1 / 2) 0 1 =
        { x := (metropolisRun (fun x : ℚ => 1 - x) (fun _ => 1)
              (fun _ => 1 / 2) 0 0).x,
          samples := (metropolisRun (fun x : ℚ => 1 - x) (fun _ => 1)
              (fun _ => 1 / 2) 0 0).samples,
          rejected := (metropolisRun (fun x : ℚ => 1 - x) (fun _ => 1)
              (fun _ => 1 / 2) 0 0).rejected ++
            [mhCandidate (fun x : ℚ => 1 - x) (fun _ => 1)
              (fun _ => 1 / 2) 0 0] }) :=
  mh_out_of_support_total (fun x : ℚ => 1 - x) (fun _ => 1) (fun _ => 1 / 2) 0
    (by norm_num) (fun i => by norm_num) 0

/-- C6: the sampler is deterministic given its random source.  The
embedding makes the random source an explicit injected input (the streams
`q` and `u`); the run is a pure function of the density, the start value
and those streams, and it reads only the first `n` draws — so two runs
whose generators produce the same draws (same seed) return identical
outputs for every node, bit for bit. -/
theorem mh_deterministic (p : α → α) (q q' u u' : ℕ → α) (xInit : α) (n : ℕ)
    (hq : ∀ i, i < n → q i = q' i) (hu : ∀ i, i < n → u i = u' i) :
    metropolis p q u xInit n = metropolis p q' u' xInit n := by
  unfold metropolis
  rw [metropolisRun_congr p q q' u u' xInit n hq hu]

/-- Witness for C6 over `ℚ`: two stream pairs that agree on the first two
draws (and differ later) give identical outputs for a 2-iteration run. -/
theorem mh_deterministic_witness :
    metropolis (fun x : ℚ => 1 + x)
        (fun i => if i < 2 then 1 else 5) (fun i => if i < 2 then 1 / 2 else 7)
        0 2 =
      metropolis (fun x : ℚ => 1 + x) (fun _ => 1) (fun _ => 1 / 2) 0 2 :=
  mh_deterministic (fun x : ℚ => 1 + x)
    (fun i => if i < 2 then 1 else 5) (fun _ => 1)
    (fun i => if i < 2 then 1 / 2 else 7) (fun _ => 1 / 2) 0 2
    (fun i hi => by simp [hi]) (fun i hi => by simp [hi])

/-- C10: the two outputs of `metropolis` partition the `n` proposed
candidates: taken together (in any order) they are exactly the candidate
list, so every candidate is recorded in exactly one of the accepted or the
rejected list, the lengths of the two returned arrays sum to `n`, and the
initial value — which is not among the candidates, barring a numeric
coincidence of a proposal with it, as hypothesised — is never recorded in
either output. -/
theorem mh_outputs_partition (p : α → α) (q u : ℕ → α) (xInit : α) (n : ℕ)
    (hnot : xInit ∉ mhCandidates p q u xInit n) :
    List.Perm
      ((metropolis p q u xInit n).1 ++ (metropolis p q u xInit n).2)
      (mhCandidates p q u xInit n) ∧
    (metropolis p q u xInit n).1.length + (metropolis p q u xInit n).2.length = n ∧
    xInit ∉ (metropolis p q u xInit n).1 ∧
    xInit ∉ (metropolis p q u xInit n).2 := by
  have hperm := metropolisRun_partition p q u xInit n
  have hlen : (metropolisRun p q u xInit n).samples.length +
      (metropolisRun p q u xInit n).rejected.length = n := by
    have := hperm.length_eq
    rw [List.length_append] at this
    rw [this]
    unfold mhCandidates
    rw [List.length_map, List.length_range]
  have hmem : xInit ∉ (metropolisRun p q u xInit n).samples ++
      (metropolisRun p q u xInit n).rejected := fun hmem =>
    hnot (hperm.mem_iff.mp hmem)
  rw [List.mem_append] at hmem
  push_neg at hmem
  exact ⟨hperm, hlen, hmem.1, hmem.2⟩

/-- Witness for C10 over `ℚ`: density `1 + x`, start 0, constant noise 1 —
the two candidates are 1 and 2, the start value 0 is proposed by neither,
both candidates are accepted, and the partition holds. -/
theorem mh_outputs_partition_witness :
    List.Perm
      ((metropolis (fun x : ℚ => 1 + x) (fun _ => 1) (fun _ => 1 / 2) 0 2).1 ++
        (metropolis (fun x : ℚ => 1 + x) (fun _ => 1) (fun _ => 1 / 2) 0 2).2)
      (mhCandidates (fun x : ℚ => 1 + x) (fun _ => 1) (fun _ => 1 / 2) 0 2) ∧
    (metropolis (fun x : ℚ => 1 + x) (fun _ => 1) (fun _ => 1 / 2) 0 2).1.length +
      (metropolis (fun x : ℚ => 1 + x) (fun _ => 1) (fun _ => 1 / 2) 0 2).2.length = 2 ∧
    (0 : ℚ) ∉ (metropolis (fun x : ℚ => 1 + x) (fun _ => 1) (fun _ => 1 / 2) 0 2).1 ∧
    (0 : ℚ) ∉ (metropolis (fun x : ℚ => 1 + x) (fun _ => 1) (fun _ => 1 / 2) 0 2).2 :=
  mh_outputs_partition (fun x : ℚ => 1 + x) (fun _ => 1) (fun _ => 1 / 2) 0 2
    (by norm_num [mhCandidates, mhCandidate, metropolisRun, metropolisStep,
      List.range_succ])

/-- C2: trace-length invariant.  For every sweep count `t`, every node's
recorded trace has length equal to the number of retained sweeps among
`1..t` (those past burn-in that pass the thinning filter).  The per-sweep
value update is universally quantified, so the invariant holds whatever
the accept/reject outcomes of the proposals were: a value is appended
after every retained sweep, also when its proposals were all rejected. -/
theorem trace_length_invariant {k : ℕ} {α : Type*}
    (update : ℕ → (Fin k → α) → (Fin k → α)) (burn thin : ℕ)
    (init : Fin k → α) (t : ℕ) (j : Fin k) :
    ((runSampler update burn thin init t).traces j).length =
      (retainedSweeps burn thin t).length := by
  rw [runSampler_traces, List.length_map]

/-- C7: the burn-in/thinning contract.  A sweep's values are appended
exactly when the sweep is past burn-in and `(sweep - burn) % thin = 0`
(first conjunct, for every configuration and every sweep), and for
`iterations = 100`, `burn_in = 20`, `thin_interval = 5` the trace length
is 16 and the first retained value is the post-sweep value of sweep 25,
not of sweep 1 (remaining conjuncts). -/
theorem burn_thin_contract {k : ℕ} {α : Type*}
    (update : ℕ → (Fin k → α) → (Fin k → α)) (burn thin : ℕ)
    (init : Fin k → α) (t : ℕ) (j : Fin k) :
    ((runSampler update burn thin init (t + 1)).traces j =
      (runSampler update burn thin init t).traces j ++
        (if burn < t + 1 ∧ (t + 1 - burn) % thin = 0 then
          [(runSampler update burn thin init (t + 1)).values j] else [])) ∧
    ((runSampler update 20 5 init 100).traces j).length = 16 ∧
    ((runSampler update 20 5 init 100).traces j).head? =
      some ((runSampler update 20 5 init 25).values j) := by
  refine ⟨?_, ?_, ?_⟩
  · have hstep : runSampler update burn thin init (t + 1) =
        sweepStep update burn thin (t + 1) (runSampler update burn thin init t) :=
      rfl
    by_cases h : retainedSweep burn thin (t + 1) = true
    · rw [if_pos ((retainedSweep_iff burn thin (t + 1)).mp h)]
      conv_lhs => rw [hstep]
      unfold sweepStep
      rw [if_pos h]
      show (runSampler update burn thin init t).traces j ++
          [update (t + 1) (runSampler update burn thin init t).values j] = _
      have hv : (runSampler update burn thin init (t + 1)).values =
          update (t + 1) (runSampler update burn thin init t).values := by
        rw [hstep, sweepStep_values]
      rw [hv]
    · rw [if_neg (fun hc => h ((retainedSweep_iff burn thin (t + 1)).mpr hc))]
      conv_lhs => rw [hstep]
      unfold sweepStep
      rw [if_neg h]
      rw [List.append_nil]
  · rw [runSampler_traces, List.length_map]
    decide
  · rw [runSampler_traces, List.head?_map]
    have h25 : (retainedSweeps 20 5 100).head? = some 25 := by decide
    rw [h25]
    rfl

/-- C8: latent-node synthesis for an Observed node.  Appending the
synthesised latents of an observed node with `k` masked (`false`) entries
to the unobserved-node set grows it by exactly `k` — one node per masked
entry, with no entry counted twice (the synthesised indices are distinct)
— and every synthesised latent carries the same parents and the same
distributional family as the observed node.  Since the sampler records one
trace sequence per unobserved node, the trace store consequently gains
exactly `k` per-iteration sequences. -/
theorem imputation_latent_count (o : ObservedSpec) (base : List LatentNode) :
    (base ++ synthLatents o).length =
      base.length + (o.mask.filter (fun b => !b)).length ∧
    ((synthLatents o).map (fun nd => nd.index)).Nodup ∧
    ∀ nd ∈ synthLatents o, nd.parents = o.parents ∧ nd.family = o.family := by
  refine ⟨?_, ?_, ?_⟩
  · rw [List.length_append]
    congr 1
    unfold synthLatents
    rw [List.length_map]
    exact enumFrom_filter_not_length o.mask 0
  · unfold synthLatents
    rw [List.map_map]
    have hsub : List.Sublist
        ((o.mask.enum.filter (fun e => !e.2)).map Prod.fst)
        (o.mask.enum.map Prod.fst) :=
      (List.filter_sublist _).map Prod.fst
    have hmap : (o.mask.enum.map Prod.fst) = List.range o.mask.length := by
      rw [List.enum_map_fst]
    have hnodup : ((o.mask.enum.filter (fun e => !e.2)).map Prod.fst).Nodup :=
      (hmap ▸ hsub).nodup (List.nodup_range _)
    exact hnodup
  · intro nd hnd
    unfold synthLatents at hnd
    rw [List.mem_map] at hnd
    obtain ⟨e, _, he⟩ := hnd
    rw [← he]
    exact ⟨rfl, rfl⟩

/-- C9: the fixed-scale continuous proposal.  The candidate is the current
value plus the noise draw (first conjunct, the notebook's
`x_prime = x + q()` with `q = lambda: np.random.normal(0, scale)` modelled
as `scale * z` for the standard draw `z`); the candidate's offset is the
same whatever the current value, so the candidate's distribution depends
only on the current value and the scale (second conjunct); the noise
family is symmetric about zero — negating the standard draw negates the
noise (third conjunct); and inside the step engine the proposal only
produces the candidate from the run's current position and the next draw
of the random source, with no other effect on the run state (fourth
conjunct). -/
theorem proposal_contract (scale cur cur' z : α) (pf : α → α)
    (zs us : ℕ → α) (xInit : α) (i : ℕ) :
    propose scale cur z = cur + qDraw scale z ∧
    propose scale cur z - cur = propose scale cur' z - cur' ∧
    qDraw scale (-z) = -(qDraw scale z) ∧
    mhCandidate pf (fun j => qDraw scale (zs j)) us xInit i =
      propose scale
        (metropolisRun pf (fun j => qDraw scale (zs j)) us xInit i).x (zs i) := by
  refine ⟨rfl, ?_, ?_, rfl⟩
  · simp [propose]
  · simp [qDraw]

end ClaimTheorems
